import Mathlib

/-!
Verification development for the iron interpreter (src/interp.rs).

The interpreter is a tree-walking evaluator for a small Lisp-family
language.  Evaluation communicates through a single shared value stack,
environments form a parent chain of mutable scopes, and closures capture
their defining environment by reference.

Modelling choices, mirroring the Rust source:

* The operand stack is a `List ExprAst` kept in `Vec` order: the head of
  the list is the *bottom* of the stack, `push` appends at the end, and
  `Vec::remove(i)` is removal at list index `i`.
* Environments are shared mutable cells (`Rc<RefCell<Environment>>` in the
  source); we model the store of cells as a heap (`List EnvData`) indexed
  by allocation order, and an environment reference is an index into it.
* `f64` values are modelled as dyadic rationals `m * 2^e` (`F64` below)
  with round-to-nearest-even at 53 significant bits, the IEEE-754 binary64
  rounding of values in normal range.  Exponent overflow and subnormal
  behaviour are outside the range exercised by any program considered here.
* Every failure path of the source (`fail!`, `.unwrap()` of `None`,
  out-of-bounds `Vec` indexing, and unsigned-subtraction underflow that
  leads to an out-of-bounds access) aborts the process; all of these are
  modelled as `none`.
* Process I/O is external to the evaluation semantics: `print` is modelled
  by its stack effect and its escape-sequence validation (the produced
  text goes to stdout and is not part of the state), and module loading
  for `import` is a function `modules : String → Option (List ExprAst)`
  standing for the file system plus the external parser.
-/

namespace Iron

/-! ### Dyadic model of `f64` -/

/-- Fueled floor of the base-2 logarithm.  The fuel only needs to exceed
the bit length of the argument; 1200 covers every magnitude representable
in IEEE-754 binary64 arithmetic. -/
def natLog2Aux : Nat → Nat → Nat
  | 0, _ => 0
  | fuel+1, n => if n ≤ 1 then 0 else natLog2Aux fuel (n / 2) + 1

def natLog2 (n : Nat) : Nat := natLog2Aux 1200 n

/-- A dyadic rational `m * 2^e`, the value model for `f64`. -/
structure F64 where
  m : Int
  e : Int
deriving DecidableEq, Repr

/-- Remove trailing zero bits of the mantissa so that each value has one
canonical representation (mirroring the uniqueness of IEEE-754 bit
patterns for values in range). -/
def stripAux : Nat → Int → Int → F64
  | 0, m, e => ⟨m, e⟩
  | fuel+1, m, e => if m ≠ 0 ∧ m % 2 = 0 then stripAux fuel (m / 2) (e + 1) else ⟨m, e⟩

/-- Round the dyadic value `m * 2^e` to 53 significant bits,
ties to even, as IEEE-754 binary64 does for in-range values. -/
def roundDyadic (m : Int) (e : Int) : F64 :=
  if m = 0 then ⟨0, 0⟩
  else
    let bits := natLog2 m.natAbs + 1
    if bits ≤ 53 then stripAux 1200 m e
    else
      let s := bits - 53
      let d : Nat := 2 ^ s
      let n := m.natAbs
      let q := n / d
      let r := n % d
      let half := d / 2
      let q' := if r < half then q else if half < r then q + 1
                else if q % 2 = 0 then q else q + 1
      let m' : Int := if m < 0 then -(q' : Int) else (q' : Int)
      stripAux 1200 m' (e + (s : Int))

/-- Conversion `i64 as f64` of the source: round the integer to binary64. -/
def intToF64 (i : Int) : F64 := roundDyadic i 0

/-- Addition of two `f64` values: align the exponents, add the mantissas
exactly, then round. -/
def fAdd (a b : F64) : F64 :=
  let e := min a.e b.e
  let m := a.m * 2 ^ (a.e - e).toNat + b.m * 2 ^ (b.e - e).toNat
  roundDyadic m e

/-- The cast `val as i64` of the source, truncation toward zero.  A cast
of an out-of-range value is undefined behaviour in the source dialect;
the model simply truncates. -/
def truncF64 (f : F64) : Int :=
  if 0 ≤ f.e then f.m * 2 ^ f.e.toNat
  else if f.m < 0 then -((f.m.natAbs / 2 ^ (-f.e).toNat : Nat) : Int)
  else ((f.m.natAbs / 2 ^ (-f.e).toNat : Nat) : Int)

/-- Rational value denoted by an `F64`; used only in proofs. -/
def fVal (f : F64) : ℚ := (f.m : ℚ) * 2 ^ f.e

/-! ### The AST / value model

Modelled from the spec: the AST type itself lives in the external
`ast` module (only `interp.rs` is available), so the variants are taken
from the spec's value model (§3) and from their uses in `interp.rs`:
scalars, strings, symbols, arrays, lists, identifiers, S-expressions
(an operator name plus operand subtrees) and `Code` closures (parameter
list, body, and a reference — here a heap index — to the captured
environment).  Runtime values and AST nodes share this representation. -/

inductive ExprAst where
  | Integer (value : Int)
  | Float (value : F64)
  | Boolean (value : Bool)
  | Nil
  | Symbol (value : String)
  | String (value : String)
  | Array (items : List ExprAst)
  | List (items : List ExprAst)
  | Ident (value : String)
  | Sexpr (op : String) (operands : List ExprAst)
  | Code (params : List ExprAst) (code : List ExprAst) (envId : Nat)

/-- The fixed built-in procedures installed by `populate_default`.  The
source stores raw function pointers (`EnvCode`); we name them. -/
inductive Builtin where
  | bAdd | bEqual | bPrint | bIf | bDefine | bFn | bGet | bSet | bLen | bImport | bType
deriving DecidableEq, Repr

/-- An environment binding: a native procedure reference or a value. -/
inductive EnvValue where
  | envCode (b : Builtin)
  | value (v : ExprAst)

/-- One environment cell: `Environment { parent, values }` of the source.
The `HashMap` is modelled as an association list with unique keys
(insertion overwrites in place). -/
structure EnvData where
  parent : Option Nat
  values : List (String × EnvValue)

/-- The store of environment cells.  `Rc::new(RefCell::new(env))` is
modelled as appending a cell; an environment reference is its index. -/
abbrev Heap := List EnvData

/-! ### Association list operations (the `HashMap` model) -/

def assocFind : List (String × EnvValue) → String → Option EnvValue
  | [], _ => none
  | (k, v) :: rest, key => if k = key then some v else assocFind rest key

/-- `HashMap::insert`: overwrite the binding if the key is present,
otherwise add it. -/
def assocInsert : List (String × EnvValue) → String → EnvValue → List (String × EnvValue)
  | [], key, v => [(key, v)]
  | (k, w) :: rest, key, v =>
    if k = key then (k, v) :: rest else (k, w) :: assocInsert rest key v

/-- `HashMap::extend`: insert every pair of the second map in order. -/
def assocExtend (l l2 : List (String × EnvValue)) : List (String × EnvValue) :=
  l2.foldl (fun acc p => assocInsert acc p.1 p.2) l

def keysUnique : List (String × EnvValue) → Bool
  | [] => true
  | (k, _) :: rest => rest.all (fun p => p.1 ≠ k) && keysUnique rest

/-! ### Stack operations (the `Vec` model) -/

/-- `Vec::remove(i)`: take out the element at index `i` (counted from the
bottom), returning `none` when the index is out of range (the source
unwraps the `Option`, so `none` is a panic at every use site). -/
def vecRemove : List ExprAst → Nat → Option (ExprAst × List ExprAst)
  | [], _ => none
  | x :: rest, 0 => some (x, rest)
  | x :: rest, i+1 => (vecRemove rest i).map (fun r => (r.1, x :: r.2))

/-- `Vec::pop`: take the last (top) element. -/
def vecPop : List ExprAst → Option (ExprAst × List ExprAst)
  | [] => none
  | [x] => some (x, [])
  | x :: y :: rest => (vecPop (y :: rest)).map (fun r => (r.1, x :: r.2))

/-- Repeat `stack.remove(stack.len() - k)` while `k` counts down: remove
`k` elements starting at the bottom of the top-`k` block, collecting them
in left-to-right order.  This is the operand-consumption loop shared by
`print`, `fn` and `import`.  When the stack holds fewer than `k` values
the source's unsigned subtraction wraps and the access panics: `none`. -/
def removeSeq : List ExprAst → Nat → Option (List ExprAst × List ExprAst)
  | s, 0 => some ([], s)
  | s, k+1 =>
    if s.length < k + 1 then none
    else
      match vecRemove s (s.length - (k+1)) with
      | none => none
      | some (x, s1) => (removeSeq s1 k).map (fun r => (x :: r.1, r.2))

/-- Repeat `stack.remove(idx)` `n` times (the `Vec::from_fn` closure of
rest-parameter binding), collecting the removed elements in order. -/
def removeNAt : Nat → Nat → List ExprAst → Option (List ExprAst × List ExprAst)
  | 0, _, s => some ([], s)
  | k+1, idx, s =>
    match vecRemove s idx with
    | none => none
    | some (x, s1) => (removeNAt k idx s1).map (fun r => (x :: r.1, r.2))

/-! ### Environment operations -/

/-- The bindings `populate_default` inserts into a fresh root
environment, in source order. -/
def defaultValues : List (String × EnvValue) :=
  [("FILE", .value (.String "")),
   ("+", .envCode .bAdd),
   ("=", .envCode .bEqual),
   ("print", .envCode .bPrint),
   ("if", .envCode .bIf),
   ("define", .envCode .bDefine),
   ("fn", .envCode .bFn),
   ("get", .envCode .bGet),
   ("set", .envCode .bSet),
   ("len", .envCode .bLen),
   ("import", .envCode .bImport),
   ("type", .envCode .bType)]

/-- Insert a binding into the own map of the environment cell `id`
(`env.values.insert(..)` of the source). -/
def heapInsert (heap : Heap) (id : Nat) (key : String) (v : EnvValue) : Heap :=
  match heap.get? id with
  | some e => heap.set id { e with values := assocInsert e.values key v }
  | none => heap

/-- `Environment::find`: look the key up in the cell's own map, then
recurse into the parent chain.  Parent indices of well-formed heaps
strictly decrease (a cell is always created after its parent), so fuel
`heap.length` always suffices. -/
def envFindAux : Nat → Heap → Nat → String → Option EnvValue
  | 0, _, _, _ => none
  | fuel+1, heap, id, key =>
    match heap.get? id with
    | none => none
    | some e =>
      match assocFind e.values key with
      | some v => some v
      | none =>
        match e.parent with
        | some p => envFindAux fuel heap p key
        | none => none

def envFind (heap : Heap) (id : Nat) (key : String) : Option EnvValue :=
  envFindAux heap.length heap id key

/-- `Environment::replace`: overwrite the binding in the nearest cell of
the chain that contains the key, returning whether one did. -/
def envReplaceAux : Nat → Heap → Nat → String → EnvValue → Bool × Heap
  | 0, heap, _, _, _ => (false, heap)
  | fuel+1, heap, id, key, v =>
    match heap.get? id with
    | none => (false, heap)
    | some e =>
      if (assocFind e.values key).isSome then
        (true, heap.set id { e with values := assocInsert e.values key v })
      else
        match e.parent with
        | some p => envReplaceAux fuel heap p key v
        | none => (false, heap)

def envReplace (heap : Heap) (id : Nat) (key : String) (v : EnvValue) : Bool × Heap :=
  envReplaceAux heap.length heap id key v

/-- The chain of environment indices from `id` up through the parents. -/
def envChainAux : Nat → Heap → Nat → List Nat
  | 0, _, _ => []
  | fuel+1, heap, id =>
    id :: (match heap.get? id with
           | some e =>
             match e.parent with
             | some p => envChainAux fuel heap p
             | none => []
           | none => [])

def envChain (heap : Heap) (id : Nat) : List Nat := envChainAux heap.length heap id

/-- Does cell `j` contain `key` in its own map? -/
def envContains (heap : Heap) (j : Nat) (key : String) : Bool :=
  match heap.get? j with
  | some e => (assocFind e.values key).isSome
  | none => false

/-- Well-formed heap: every parent reference points to an older cell.
Evaluation only ever creates cells whose parent already exists, so every
reachable heap satisfies this. -/
def wfHeap (heap : Heap) : Bool :=
  (List.range heap.length).all (fun i =>
    match heap.get? i with
    | some e =>
      match e.parent with
      | some p => decide (p < i)
      | none => true
    | none => true)

/-! ### Structural equality of values

The source derives `PartialEq` on the AST.  One modelled divergence: the
source compares the captured environments of two `Code` values by
content through the `Rc`, while the model compares the heap indices;
no program considered here compares closures. -/

mutual
def beqExpr : ExprAst → ExprAst → Bool
  | .Integer a, .Integer b => a == b
  | .Float a, .Float b => a == b
  | .Boolean a, .Boolean b => a == b
  | .Nil, .Nil => true
  | .Symbol a, .Symbol b => a == b
  | .String a, .String b => a == b
  | .Array a, .Array b => beqExprList a b
  | .List a, .List b => beqExprList a b
  | .Ident a, .Ident b => a == b
  | .Sexpr o a, .Sexpr o2 b => o == o2 && beqExprList a b
  | .Code p c e, .Code p2 c2 e2 => beqExprList p p2 && beqExprList c c2 && e == e2
  | _, _ => false

def beqExprList : List ExprAst → List ExprAst → Bool
  | [], [] => true
  | x :: xs, y :: ys => beqExpr x y && beqExprList xs ys
  | _, _ => false
end

/-! ### The built-in procedures (`Environment::add` .. `type_obj`) -/

/-- The accumulation loop of `Environment::add`: pop `ops` operands,
summing them in a running `f64` and recording whether any was a float. -/
def addLoop : Nat → List ExprAst → F64 → Bool → Option (F64 × Bool × List ExprAst)
  | 0, stack, val, dec => some (val, dec, stack)
  | ops+1, stack, val, dec =>
    match vecPop stack with
    | none => none
    | some (x, s1) =>
      match x with
      | .Integer i => addLoop ops s1 (fAdd val (intToF64 i)) dec
      | .Float f => addLoop ops s1 (fAdd val f) true
      | _ => none

/-- `Environment::add`: sum the operands; the result is a float exactly
when some operand was, otherwise the accumulator cast back to `i64`. -/
def builtinAdd (stack : List ExprAst) (ops : Nat) : Option (ExprAst × List ExprAst) :=
  (addLoop ops stack ⟨0, 0⟩ false).map
    (fun r => (if r.2.1 then .Float r.1 else .Integer (truncF64 r.1), r.2.2))

/-- The comparison loop of `Environment::equal`: pop and compare against
the first popped operand, returning `false` early on a mismatch (leaving
the remaining operands on the stack, as the source does). -/
def eqLoop (cmp : ExprAst) : Nat → List ExprAst → Option (ExprAst × List ExprAst)
  | 0, s => some (.Boolean true, s)
  | k+1, s =>
    match vecPop s with
    | none => none
    | some (x, s1) =>
      if beqExpr x cmp then eqLoop cmp k s1 else some (.Boolean false, s1)

def builtinEqual (stack : List ExprAst) (ops : Nat) : Option (ExprAst × List ExprAst) :=
  if ops < 2 then none
  else
    match vecPop stack with
    | none => none
    | some (cmp, s1) => eqLoop cmp (ops - 1) s1

/-- The escape scan of `Environment::print` over one string: `\\` is a
literal backslash, `\n` and `\t` are recognized, any other escaped
character and a trailing escape are fatal. -/
def validEscapes : List Char → Bool → Bool
  | [], esc => !esc
  | c :: rest, esc =>
    if c = '\\' then (if esc then validEscapes rest false else validEscapes rest true)
    else if esc then (if c = 'n' || c = 't' then validEscapes rest false else false)
    else validEscapes rest false

/-- Which values `print` accepts; the text written to stdout is external
to the state and not modelled. -/
def printableOk : ExprAst → Bool
  | .Integer _ => true
  | .Float _ => true
  | .String s => validEscapes s.data false
  | .Symbol _ => true
  | .Boolean _ => true
  | _ => false

def builtinPrint (stack : List ExprAst) (ops : Nat) : Option (ExprAst × List ExprAst) :=
  match removeSeq stack ops with
  | none => none
  | some (xs, s1) => if xs.all printableOk then some (.Integer 0, s1) else none

/-- `Environment::function` (the `fn` built-in): the first pushed operand
is the parameter array, the remaining operands are the body in order, and
the result is a `Code` value capturing the current environment. -/
def builtinFn (envId : Nat) (stack : List ExprAst) (ops : Nat) : Option (ExprAst × List ExprAst) :=
  if ops = 0 then none
  else if stack.length < ops then none
  else
    match vecRemove stack (stack.length - ops) with
    | some (.Array params, s1) =>
      (removeSeq s1 (ops - 1)).map (fun r => (.Code params r.1 envId, r.2))
    | some _ => none
    | none => none

/-- The index computation shared by `get` and `set`: a negative index
counts from the end (`arrlen + idx` after the unsigned wrap) and is a
fatal bounds error when its magnitude exceeds the length; a non-negative
index passes through unchecked. -/
def normIdx (i : Int) (n : Nat) : Option Nat :=
  if i < 0 then
    if n < (-i).toNat then none else some (n - (-i).toNat)
  else some i.toNat

def builtinGet (stack : List ExprAst) (ops : Nat) : Option (ExprAst × List ExprAst) :=
  if ops ≠ 2 then none
  else if stack.length < 2 then none
  else
    match vecRemove stack (stack.length - 2) with
    | some (.Array items, s1) =>
      match vecPop s1 with
      | some (.Integer i, s2) =>
        match normIdx i items.length with
        | none => none
        | some j => (items.get? j).map (fun v => (v, s2))
      | some _ => none
      | none => none
    | some _ => none
    | none => none

/-- `Vec::grow_set`: set index `j`, first growing the vector with copies
of `init` when `j` is past the end. -/
def growSet (l : List ExprAst) (j : Nat) (init v : ExprAst) : List ExprAst :=
  if j < l.length then l.set j v
  else l ++ List.replicate (j - l.length) init ++ [v]

/-- `Environment::set`: a literal-array target is a no-op returning nil;
an identifier target must resolve to an array, which is rebound (via
`replace`) to a copy updated with `grow_set`. -/
def builtinSet (heap : Heap) (envId : Nat) (stack : List ExprAst) (ops : Nat) :
    Option (ExprAst × Heap × List ExprAst) :=
  if ops ≠ 3 then none
  else if stack.length < 3 then none
  else
    match vecRemove stack (stack.length - 3) with
    | some (.Array _, s1) => some (.Nil, heap, s1)
    | some (.Ident a, s1) =>
      match envFind heap envId a with
      | some (.value (.Array items)) =>
        if s1.length < 2 then none
        else
          match vecRemove s1 (s1.length - 2) with
          | some (.Integer i, s2) =>
            match vecPop s2 with
            | none => none
            | some (v, s3) =>
              match normIdx i items.length with
              | none => none
              | some j =>
                some (.Nil, (envReplace heap envId a (.value (.Array (growSet items j .Nil v)))).2, s3)
          | some _ => none
          | none => none
      | some _ => none
      | none => none
    | some _ => none
    | none => none

def builtinLen (stack : List ExprAst) (ops : Nat) : Option (ExprAst × List ExprAst) :=
  if ops ≠ 1 then none
  else
    match vecPop stack with
    | some (.Array items, s1) => some (.Integer (items.length : Int), s1)
    | some _ => none
    | none => none

def builtinType (stack : List ExprAst) (ops : Nat) : Option (ExprAst × List ExprAst) :=
  if ops ≠ 1 then none
  else
    match vecPop stack with
    | none => none
    | some (x, s1) =>
      match x with
      | .Integer _ => some (.Symbol "integer", s1)
      | .Float _ => some (.Symbol "float", s1)
      | .Array _ => some (.Symbol "array", s1)
      | .List _ => some (.Symbol "list", s1)
      | .String _ => some (.Symbol "string", s1)
      | .Symbol _ => some (.Symbol "symbol", s1)
      | .Code _ _ _ => some (.Symbol "code", s1)
      | .Boolean _ => some (.Symbol "boolean", s1)
      | .Nil => some (.Symbol "nil", s1)
      | _ => none

/-! ### Closure argument binding (`execute_node`, `Code` invocation) -/

/-- Does the parameter name end in the rest marker `...`? -/
def isRestName (s : String) : Bool :=
  match s.data.reverse with
  | '.' :: '.' :: '.' :: _ => true
  | _ => false

/-- Strip the trailing `...` (the source's `slice_to(len - 3)`). -/
def dropRestDots (s : String) : String := ⟨(s.data.reverse.drop 3).reverse⟩

/-- The parameter-binding loop.  Each plain parameter takes the value at
the fixed index `idx`; a rest parameter takes `len - count` values from
`idx` into an array.  When `count` exceeds `len` the source's unsigned
subtraction wraps and `Vec::from_fn` drains the stack until an access
panics, so the model fails. -/
def bindParams : List ExprAst → Nat → Nat → Nat → List ExprAst →
    List (String × EnvValue) → Option (List (String × EnvValue) × List ExprAst)
  | [], _, _, _, stack, acc => some (acc, stack)
  | p :: rest, count, len, idx, stack, acc =>
    match p with
    | .Ident pname =>
      if isRestName pname then
        if len < count then none
        else
          match removeNAt (len - count) idx stack with
          | none => none
          | some (vs, s1) =>
            bindParams rest (count + 1) len idx s1
              (assocInsert acc (dropRestDots pname) (.value (.Array vs)))
      else
        match vecRemove stack idx with
        | none => none
        | some (v, s1) =>
          bindParams rest (count + 1) len idx s1 (assocInsert acc pname (.value v))
    | _ => none

/-- Argument preparation for a `Code` invocation: with more arguments
than parameters, the excess is popped from the top and dropped; then the
parameters are bound starting at index `stack.len() - len`.  When the
stack holds fewer than `len` values the source's unsigned subtraction
wraps and the first removal panics. -/
def prepareArgs (params : List ExprAst) (n : Nat) (stack : List ExprAst) :
    Option (List (String × EnvValue) × List ExprAst) :=
  let stack1 := if params.length < n then stack.take (stack.length - (n - params.length)) else stack
  let len := if params.length < n then params.length else n
  if stack1.length < len then none
  else bindParams params 0 len (stack1.length - len) stack1 []

/-! ### Import path resolution

Modelled from the spec: path manipulation (`Path::dir_path`, `join`,
`set_extension`) and file reading plus parsing are external to
`interp.rs`.  Following the spec, a relative module path resolves
against the directory of the current `FILE` binding and the language's
`.irl` extension is added when absent; the file system together with
the parser is abstracted as a function from resolved paths to parsed
top-level forms. -/

def strStartsRel (s : String) : Bool :=
  match s.data with
  | '.' :: '/' :: _ => true
  | '.' :: '.' :: '/' :: _ => true
  | _ => false

def strEndsIrl (s : String) : Bool :=
  match s.data.reverse with
  | 'l' :: 'r' :: 'i' :: '.' :: _ => true
  | _ => false

/-- Modelled from the spec: the directory part of a path (drop the last
component). -/
def dirPath (p : String) : String :=
  ⟨((p.data.reverse.dropWhile (fun c => !(c = '/'))).drop 1).reverse⟩

/-- Modelled from the spec: resolve a relative module path against the
directory of the importing file, defaulting the extension to `.irl`. -/
def resolvePath (file slice : String) : String :=
  let joined := dirPath file ++ "/" ++ slice
  if strEndsIrl slice then joined else joined ++ ".irl"

/-- The file system plus the external parser, for `import`: maps a
resolved path to the parsed top-level forms of the module, or `none`
when the file cannot be read. -/
abbrev Modules := String → Option (List ExprAst)

def noModules : Modules := fun _ => none

/-! ### The evaluator

`execute_node` recurses through operand evaluation, the recursive
built-ins (`define`, `if`, `import`) and closure bodies.  The recursion
is not structural in the AST (`if` re-enters arbitrary pushed subtrees),
so the model uses a fuel parameter: `executeNode modules fuel` makes
every nested evaluation with fuel one smaller, and the helpers below take
the one-step-smaller evaluator as the argument `exec`. -/

abbrev Exec := Heap → Nat → List ExprAst → ExprAst → Option (Heap × List ExprAst)

/-- Evaluate a list of nodes in sequence on the shared stack: the operand
loop of ordinary calls, of `define`/`set` tails, and the closure body
loop. -/
def execSeqF (exec : Exec) : Heap → Nat → List ExprAst → List ExprAst → Option (Heap × List ExprAst)
  | heap, _, stack, [] => some (heap, stack)
  | heap, envId, stack, n :: rest =>
    match exec heap envId stack n with
    | none => none
    | some r => execSeqF exec r.1 envId r.2 rest

/-- `Interpreter::execute`: run each top-level form on a fresh stack,
clearing the stack afterwards.  The pre-execution `optimize` pass is
external; the spec specifies it returns an equivalent root sequence, so
it is modelled as the identity. -/
def execProgramF (exec : Exec) : Heap → Nat → List ExprAst → Option Heap
  | heap, _, [] => some heap
  | heap, envId, a :: rest =>
    match exec heap envId [] a with
    | none => none
    | some r => execProgramF exec r.1 envId rest

/-- `Environment::define`: pop the value (evaluating it once more if it
is still an S-expression), pop the identifier, and insert the binding
into the current environment. -/
def builtinDefine (exec : Exec) (heap : Heap) (envId : Nat) (stack : List ExprAst) (ops : Nat) :
    Option (ExprAst × Heap × List ExprAst) :=
  if ops ≠ 2 then none
  else
    match vecPop stack with
    | none => none
    | some (v0, s1) =>
      let step : Option (ExprAst × Heap × List ExprAst) :=
        match v0 with
        | .Sexpr o oper =>
          match exec heap envId s1 (.Sexpr o oper) with
          | none => none
          | some (h1, s2) =>
            match vecPop s2 with
            | none => none
            | some (v1, s3) => some (v1, h1, s3)
        | other => some (other, heap, s1)
      match step with
      | none => none
      | some (valast, h1, s2) =>
        match vecPop s2 with
        | some (.Ident name, s3) => some (valast, heapInsert h1 envId name (.value valast), s3)
        | some _ => none
        | none => none

/-- `Environment::ifexpr`: take the evaluated condition and the raw
branches from the stack, evaluate the selected branch (if any), and pop
the result.  With a false condition and no else branch nothing is
evaluated and the final pop takes whatever lies beneath. -/
def builtinIf (exec : Exec) (heap : Heap) (envId : Nat) (stack : List ExprAst) (ops : Nat) :
    Option (ExprAst × Heap × List ExprAst) :=
  if ops < 2 ∨ 3 < ops then none
  else if stack.length < ops then none
  else
    match vecRemove stack (stack.length - ops) with
    | none => none
    | some (c, s1) =>
      match c with
      | .Boolean cond =>
        -- The source computes `stack.len() - ops + 1` on the shrunk stack
        -- with wrapping unsigned arithmetic; given the guard above the
        -- composite equals `s1.length + 1 - ops` (never negative).
        match vecRemove s1 (s1.length + 1 - ops) with
        | none => none
        | some (ontrue, s2) =>
          let step : Option (Heap × List ExprAst) :=
            if 0 < ops - 2 then
              match vecPop s2 with
              | none => none
              | some (onfalse, s3) =>
                if !cond then exec heap envId s3 onfalse else some (heap, s3)
            else some (heap, s2)
          match step with
          | none => none
          | some (h1, s4) =>
            match (if cond then exec h1 envId s4 ontrue else some (h1, s4)) with
            | none => none
            | some (h2, s5) =>
              match vecPop s5 with
              | none => none
              | some (v, s6) => some (v, h2, s6)
      | _ => none

/-- One iteration of `Environment::importexpr`: resolve the path against
the `FILE` binding, read and parse the module, execute it in a fresh
interpreter whose root environment is newly allocated (with the default
bindings, then `FILE` set to the resolved path), and merge every binding
of that root environment into the importing environment. -/
def importOne (modules : Modules) (exec : Exec) (heap : Heap) (envId : Nat) (slice : String) :
    Option Heap :=
  if strStartsRel slice then
    match envFind heap envId "FILE" with
    | some (.value (.String f)) =>
      let path := resolvePath f slice
      match modules path with
      | none => none
      | some asts =>
        let rootId := heap.length
        let heap1 := heapInsert (heap ++ [⟨none, defaultValues⟩]) rootId "FILE"
          (.value (.String path))
        match execProgramF exec heap1 rootId asts with
        | none => none
        | some heapN =>
          match heapN.get? rootId, heapN.get? envId with
          | some rootE, some impE =>
            some (heapN.set envId { impE with values := assocExtend impE.values rootE.values })
          | _, _ => none
    | some _ => none
    | none => none
  else none

def importLoop (modules : Modules) (exec : Exec) : Nat → Heap → Nat → List ExprAst →
    Option (Heap × List ExprAst)
  | 0, heap, _, stack => some (heap, stack)
  | k+1, heap, envId, stack =>
    if stack.length < k + 1 then none
    else
      match vecRemove stack (stack.length - (k+1)) with
      | some (.String slice, s1) =>
        match importOne modules exec heap envId slice with
        | none => none
        | some h1 => importLoop modules exec k h1 envId s1
      | some _ => none
      | none => none

def builtinImport (modules : Modules) (exec : Exec) (heap : Heap) (envId : Nat)
    (stack : List ExprAst) (ops : Nat) : Option (ExprAst × Heap × List ExprAst) :=
  if ops = 0 then none
  else (importLoop modules exec ops heap envId stack).map (fun r => (.Nil, r.1, r.2))

/-- Dispatch an `EnvCode` thunk. -/
def applyBuiltinF (modules : Modules) (exec : Exec) (b : Builtin) (heap : Heap) (envId : Nat)
    (stack : List ExprAst) (ops : Nat) : Option (ExprAst × Heap × List ExprAst) :=
  match b with
  | .bAdd => (builtinAdd stack ops).map (fun r => (r.1, heap, r.2))
  | .bEqual => (builtinEqual stack ops).map (fun r => (r.1, heap, r.2))
  | .bPrint => (builtinPrint stack ops).map (fun r => (r.1, heap, r.2))
  | .bIf => builtinIf exec heap envId stack ops
  | .bDefine => builtinDefine exec heap envId stack ops
  | .bFn => (builtinFn envId stack ops).map (fun r => (r.1, heap, r.2))
  | .bGet => (builtinGet stack ops).map (fun r => (r.1, heap, r.2))
  | .bSet => builtinSet heap envId stack ops
  | .bLen => (builtinLen stack ops).map (fun r => (r.1, heap, r.2))
  | .bImport => builtinImport modules exec heap envId stack ops
  | .bType => (builtinType stack ops).map (fun r => (r.1, heap, r.2))

/-- The special-form operand preparation of `execute_node`: `fn` pushes
every operand raw, `if` evaluates the first operand and pushes the rest
raw, `define`/`set` push the first operand raw and evaluate the rest,
and every other operator evaluates all operands left to right. -/
def prepOperands (exec : Exec) (heap : Heap) (envId : Nat) (stack : List ExprAst)
    (op : String) (operands : List ExprAst) : Option (Heap × List ExprAst) :=
  if op = "fn" then some (heap, stack ++ operands)
  else if op = "if" then
    match operands with
    | [] => some (heap, stack)
    | c :: rest => (exec heap envId stack c).map (fun r => (r.1, r.2 ++ rest))
  else if op = "define" ∨ op = "set" then
    match operands with
    | [] => some (heap, stack)
    | t :: rest => execSeqF exec heap envId (stack ++ [t]) rest
  else execSeqF exec heap envId stack operands

/-- The body of `Interpreter::execute_node` before the final trim:
special-form operand preparation, operator resolution, and dispatch to a
built-in thunk (whose result is pushed) or to a `Code` closure (whose
body is run in a fresh child environment, pushing nothing itself). -/
def executeNodeCoreF (modules : Modules) (exec : Exec) (heap : Heap) (envId : Nat)
    (stack : List ExprAst) (node : ExprAst) : Option (Heap × List ExprAst) :=
  match node with
  | .Sexpr op operands =>
    match prepOperands exec heap envId stack op operands with
    | none => none
    | some (heap1, stack1) =>
      match envFind heap1 envId op with
      | none => none
      | some (.envCode b) =>
        (applyBuiltinF modules exec b heap1 envId stack1 operands.length).map
          (fun r => (r.2.1, r.2.2 ++ [r.1]))
      | some (.value v) =>
        match v with
        | .Code params body cenv =>
          match prepareArgs params operands.length stack1 with
          | none => none
          | some (vals, stack2) =>
            execSeqF exec (heap1 ++ [⟨some cenv, vals⟩]) heap1.length stack2 body
        | _ => none
  | .Ident name =>
    match envFind heap envId name with
    | some (.value v) => some (heap, stack ++ [v])
    | some (.envCode _) => none
    | none => none
  | other => some (heap, stack ++ [other])

/-- `Interpreter::execute_node`: run the core, then trim the stack from
the top down to one more value than the entry depth (`List.take` both
performs the removal loop and is the identity when nothing exceeds that
depth). -/
def executeNode (modules : Modules) : Nat → Exec
  | 0, _, _, _, _ => none
  | fuel+1, heap, envId, stack, node =>
    (executeNodeCoreF modules (executeNode modules fuel) heap envId stack node).map
      (fun r => (r.1, r.2.take (stack.length + 1)))

/-- The root environment of `Interpreter::new`. -/
def initHeap : Heap := [⟨none, defaultValues⟩]

def runProgramAux (modules : Modules) (fuel : Nat) : Heap → List ExprAst →
    Option (Heap × List ExprAst)
  | heap, [] => some (heap, [])
  | heap, [a] => executeNode modules fuel heap 0 [] a
  | heap, a :: b :: rest =>
    match executeNode modules fuel heap 0 [] a with
    | none => none
    | some r => runProgramAux modules fuel r.1 (b :: rest)

/-- Run a program from a fresh interpreter, returning the final heap and
the value stack of the last top-level form (the stack is cleared between
forms, so this is the program's final value). -/
def runProgram (fuel : Nat) (prog : List ExprAst) : Option (Heap × List ExprAst) :=
  runProgramAux noModules fuel initHeap prog

/-! ### Concrete programs and heaps used in the claims -/

/-- The spec's rest-parameter scenario:
`(define x (fn [a b...] (+ a (len b)))) (x 1 2 3 4)`. -/
def restParamProg : List ExprAst :=
  [.Sexpr "define" [.Ident "x",
     .Sexpr "fn" [.Array [.Ident "a", .Ident "b..."],
       .Sexpr "+" [.Ident "a", .Sexpr "len" [.Ident "b"]]]],
   .Sexpr "x" [.Integer 1, .Integer 2, .Integer 3, .Integer 4]]

/-- A heap binding `f` to a closure with no parameters and an empty body. -/
def heapEmptyBody : Heap := [⟨none, [("f", .value (.Code [] [] 0))]⟩]

/-- A heap binding `g` to a parameterless closure whose body is the two
literals `1` and `2`. -/
def heapTwoBody : Heap := [⟨none, [("g", .value (.Code [] [.Integer 1, .Integer 2] 0))]⟩]

/-- The program `(set [1 2] 0 5)`: a `set` whose target is a literal
array. -/
def setLiteralProg : List ExprAst :=
  [.Sexpr "set" [.Array [.Integer 1, .Integer 2], .Integer 0, .Integer 5]]

/-- The program `(define a [1 2 3]) (set a 5 9) (len a)`: a `set` whose
non-negative index is past the end of the array. -/
def setGrowProg : List ExprAst :=
  [.Sexpr "define" [.Ident "a", .Array [.Integer 1, .Integer 2, .Integer 3]],
   .Sexpr "set" [.Ident "a", .Integer 5, .Integer 9],
   .Sexpr "len" [.Ident "a"]]

/-- Numeric-only operand check for `+`. -/
def numericOk : ExprAst → Bool
  | .Integer _ => true
  | .Float _ => true
  | _ => false

def isFloatV : ExprAst → Bool
  | .Float _ => true
  | _ => false

/-- Left-to-right folding view of the `add` loop (the loop pops from the
top, so it processes the pushed block right to left). -/
def addFoldL : List ExprAst → F64 → Bool → Option (F64 × Bool)
  | [], acc, dec => some (acc, dec)
  | x :: rest, acc, dec =>
    match x with
    | .Integer i => addFoldL rest (fAdd acc (intToF64 i)) dec
    | .Float f => addFoldL rest (fAdd acc f) true
    | _ => none

/-- Exactness condition for integer summation in `f64`: every operand and
every running sum stays strictly below `2^53` in magnitude, so no
rounding step loses information.  The list is in processing order. -/
def foldOkB (a : Int) : List Int → Bool
  | [] => true
  | x :: rest =>
    decide (x.natAbs < 2 ^ 53) && decide ((a + x).natAbs < 2 ^ 53) && foldOkB (a + x) rest

/-- Update the own map of cell `j` (the effect of a successful
`replace`). -/
def heapUpd (heap : Heap) (j : Nat) (key : String) (v : EnvValue) : Heap :=
  match heap.get? j with
  | some e => heap.set j { e with values := assocInsert e.values key v }
  | none => heap

end Iron

namespace Iron

/-! ## Generic lemmas about the stack model -/

theorem vecPop_append (s : List ExprAst) (v : ExprAst) : vecPop (s ++ [v]) = some (v, s) := by
  induction s with
  | nil => rfl
  | cons x rest ih =>
    cases rest with
    | nil => rfl
    | cons y t =>
      simp only [List.cons_append] at ih ⊢
      rw [vecPop, ih]
      rfl

theorem vecRemove_append (s : List ExprAst) (x : ExprAst) (r : List ExprAst) :
    vecRemove (s ++ x :: r) s.length = some (x, s ++ r) := by
  induction s with
  | nil => rfl
  | cons a t ih =>
    simp only [List.cons_append, List.length_cons]
    rw [vecRemove, ih]
    rfl

theorem take_len_succ (s : List ExprAst) (v : ExprAst) (rest : List ExprAst) :
    (s ++ v :: rest).take (s.length + 1) = s ++ [v] := by
  induction s with
  | nil => simp
  | cons a t ih => simp [ih]

/-! ## Claim C2: net stack effect of `execute_node` -/

/-- C2 counterexample: invoking a closure with an empty body leaves the
stack at its entry depth, not one deeper — the final trim only removes
values, it never provides the missing result.  Here `(f)` with
`f = (fn [])` returns with an empty stack. -/
theorem emptyBodyCallNetZero :
    executeNode noModules 5 heapEmptyBody 0 [] (.Sexpr "f" [])
      = some (heapEmptyBody ++ [⟨some 0, []⟩], []) ∧ (0 : Nat) ≠ 0 + 1 :=
  ⟨rfl, by decide⟩

/-- C2 (amended): after `execute_node` returns, the stack holds at most
one more value than on entry — the final trim discards everything above
that depth, but nothing guarantees the depth is reached. -/
theorem executeNodeNetAtMostOne (modules : Modules) (fuel : Nat) (heap : Heap) (envId : Nat)
    (stack : List ExprAst) (node : ExprAst) (heap2 : Heap) (stack2 : List ExprAst)
    (h : executeNode modules fuel heap envId stack node = some (heap2, stack2)) :
    stack2.length ≤ stack.length + 1 := by
  cases fuel with
  | zero => simp [executeNode] at h
  | succ fuel =>
    rw [executeNode, Option.map_eq_some'] at h
    obtain ⟨r, -, heq⟩ := h
    have h2 : stack2 = r.2.take (stack.length + 1) := by
      have := congrArg Prod.snd heq
      simpa using this.symm
    rw [h2, List.length_take]
    omega

theorem executeNodeNetAtMostOneWitness :
    ([ExprAst.Integer 3] : List ExprAst).length ≤ ([] : List ExprAst).length + 1 :=
  executeNodeNetAtMostOne noModules 1 initHeap 0 [] (.Integer 3) initHeap [.Integer 3] rfl

/-! ## Claim C1: rest-parameter binding -/

/-- C1: the spec's scenario evaluates to the integer 2, not 4.  The
over-supply trim (which treats the rest parameter as one ordinary
parameter) pops and discards the arguments 3 and 4 before binding, so
the rest parameter `b` is bound to `[2]` alone and `(+ a (len b))`
is `1 + 1`. -/
theorem restParamScenarioEvaluatesToTwo :
    (runProgram 50 restParamProg).map Prod.snd = some [.Integer 2]
      ∧ (some [ExprAst.Integer 2] : Option (List ExprAst)) ≠ some [.Integer 4] := by
  refine ⟨rfl, fun hcon => ?_⟩
  simp only [Option.some.injEq, List.cons.injEq, ExprAst.Integer.injEq, and_true] at hcon
  omega

/-! ## Claim C3: value of a multi-expression closure body -/

/-- C3 counterexample: calling `g = (fn [] 1 2)` produces the *first*
body expression's value `1`, not the last one `2`: the end-of-node trim
removes from the top, discarding every later body value. -/
theorem multiBodyCallKeepsFirstValue :
    executeNode noModules 5 heapTwoBody 0 [] (.Sexpr "g" [])
      = some (heapTwoBody ++ [⟨some 0, []⟩], [.Integer 1])
      ∧ [ExprAst.Integer 1] ≠ [ExprAst.Integer 2] := by
  refine ⟨rfl, fun hcon => ?_⟩
  simp only [List.cons.injEq, ExprAst.Integer.injEq, and_true] at hcon
  omega

/-- C3 (amended): body expressions run sequentially in the fresh child
environment, and when each pushes its own net value the call's value is
the *first* body expression's value; the later values are the ones
discarded by the trim. -/
theorem closureCallReturnsFirstBodyValue (modules : Modules) (fuel : Nat) (heap heap1 heap3 heap4 : Heap)
    (envId cenv : Nat) (stack stack1 : List ExprAst) (fname : String)
    (args params rest ext : List ExprAst) (b v1 : ExprAst) (vals : List (String × EnvValue))
    (hfn : fname ≠ "fn") (hif : fname ≠ "if") (hdef : fname ≠ "define") (hsetn : fname ≠ "set")
    (hargs : execSeqF (executeNode modules fuel) heap envId stack args = some (heap1, stack1))
    (hfind : envFind heap1 envId fname = some (.value (.Code params (b :: rest) cenv)))
    (hbind : prepareArgs params args.length stack1 = some (vals, stack))
    (hb : executeNode modules fuel (heap1 ++ [⟨some cenv, vals⟩]) heap1.length stack b
        = some (heap3, stack ++ [v1]))
    (hrest : execSeqF (executeNode modules fuel) heap3 heap1.length (stack ++ [v1]) rest
        = some (heap4, stack ++ v1 :: ext)) :
    executeNode modules (fuel + 1) heap envId stack (.Sexpr fname args)
      = some (heap4, stack ++ [v1]) := by
  have hprep : prepOperands (executeNode modules fuel) heap envId stack fname args
      = some (heap1, stack1) := by
    unfold prepOperands
    rw [if_neg hfn, if_neg hif,
      if_neg (by simp [hdef, hsetn] : ¬(fname = "define" ∨ fname = "set"))]
    exact hargs
  rw [executeNode, executeNodeCoreF]
  simp only [hprep, hfind, hbind, execSeqF, hb, hrest, Option.map_some']
  rw [take_len_succ]

/-! ## Claim C4: `set` with a literal array target -/

/-- C4 counterexample: `(set [1 2] 0 5)` leaves no bindings behind, but
the value of the whole form is the evaluated index `0`, not nil: the
`set` built-in consumes only the array operand before returning nil, and
the end-of-node trim then discards the pushed nil (and the value
operand) from the top, leaving the leftover index as the form's value. -/
theorem setLiteralArrayFormValue :
    (runProgram 50 setLiteralProg).map Prod.snd = some [.Integer 0]
      ∧ (some [ExprAst.Integer 0] : Option (List ExprAst)) ≠ some [.Nil] := by
  refine ⟨rfl, fun hcon => ?_⟩
  simp only [Option.some.injEq, List.cons.injEq, and_true] at hcon
  exact absurd hcon (by intro hx; cases hx)

/-- C4 (amended): a `set` form whose first operand is a literal array
changes no environment binding (the heap is exactly the one produced by
evaluating the index and value operands), and the `set` built-in itself
returns nil — but the value of the whole form is the evaluated index
operand, because the built-in leaves the index and value on the stack
and the trim keeps the bottom-most leftover. -/
theorem setLiteralArrayNoopIndexValue (modules : Modules) (fuel : Nat) (heap heap1 : Heap)
    (envId : Nat) (stack : List ExprAst) (items rest : List ExprAst) (i v : ExprAst)
    (hops : rest.length = 2)
    (hprep : execSeqF (executeNode modules fuel) heap envId (stack ++ [.Array items]) rest
      = some (heap1, stack ++ [.Array items, i, v]))
    (hset : envFind heap1 envId "set" = some (.envCode .bSet)) :
    executeNode modules (fuel + 1) heap envId stack (.Sexpr "set" (.Array items :: rest))
      = some (heap1, stack ++ [i]) := by
  have hprep2 : prepOperands (executeNode modules fuel) heap envId stack "set"
      (.Array items :: rest) = some (heap1, stack ++ [.Array items, i, v]) := by
    unfold prepOperands
    rw [if_neg (by decide), if_neg (by decide), if_pos (by simp)]
    exact hprep
  have hrem : vecRemove (stack ++ [.Array items, i, v]) ((stack.length + 3) - 3)
      = some (.Array items, stack ++ [i, v]) := by
    have := vecRemove_append stack (.Array items) [i, v]
    simpa using this
  have hlen : (stack ++ [.Array items, i, v]).length = stack.length + 3 := by simp
  rw [executeNode, executeNodeCoreF]
  simp only [hprep2, hset]
  have hbs : builtinSet heap1 envId (stack ++ [.Array items, i, v]) (.Array items :: rest).length
      = some (.Nil, heap1, stack ++ [i, v]) := by
    unfold builtinSet
    rw [if_neg (by simp [hops]), if_neg (by simp)]
    simp only [List.length_cons, hops, hlen, hrem]
  simp only [applyBuiltinF, hbs, Option.map_some']
  have : (stack ++ [i, v] ++ [ExprAst.Nil]) = stack ++ i :: [v, .Nil] := by simp
  rw [this, take_len_succ]

theorem setLiteralArrayNoopIndexValueWitness :
    executeNode noModules 11 initHeap 0 []
      (.Sexpr "set" [.Array [.Integer 1, .Integer 2], .Integer 0, .Integer 5])
      = some (initHeap, [.Integer 0]) := by
  have h := setLiteralArrayNoopIndexValue noModules 10 initHeap initHeap 0 []
    [.Integer 1, .Integer 2] [.Integer 0, .Integer 5] (.Integer 0) (.Integer 5)
    (by decide) rfl rfl
  simpa using h

/-! ## Claim C5: `get`/`set` index semantics -/

/-- Plumbing lemma: `get` on a well-shaped stack reduces to the shared
index computation followed by the element lookup (whose out-of-bounds
panic is `none`). -/
theorem builtinGet_shape (s items : List ExprAst) (i : Int) :
    builtinGet (s ++ [.Array items, .Integer i]) 2
      = match normIdx i items.length with
        | none => none
        | some j => (items.get? j).map (fun w => (w, s)) := by
  unfold builtinGet
  rw [if_neg (by decide : ¬(2 ≠ 2)), if_neg (by simp : ¬((s ++ [ExprAst.Array items, ExprAst.Integer i]).length < 2))]
  have hrem : vecRemove (s ++ [.Array items, .Integer i])
      ((s ++ [ExprAst.Array items, ExprAst.Integer i]).length - 2)
      = some (.Array items, s ++ [.Integer i]) := by
    have := vecRemove_append s (.Array items) [.Integer i]
    simpa using this
  rw [hrem]
  simp only [vecPop_append s (.Integer i)]

/-- Plumbing lemma: `set` on a well-shaped stack with an identifier
target bound to an array reduces to the index computation followed by
the `grow_set` rebinding. -/
theorem builtinSet_shape (heap : Heap) (envId : Nat) (a : String) (s items : List ExprAst)
    (i : Int) (v : ExprAst)
    (hf : envFind heap envId a = some (.value (.Array items))) :
    builtinSet heap envId (s ++ [.Ident a, .Integer i, v]) 3
      = match normIdx i items.length with
        | none => none
        | some j =>
          some (.Nil, (envReplace heap envId a (.value (.Array (growSet items j .Nil v)))).2, s) := by
  unfold builtinSet
  rw [if_neg (by decide : ¬(3 ≠ 3)),
    if_neg (by simp : ¬((s ++ [ExprAst.Ident a, ExprAst.Integer i, v]).length < 3))]
  have hrem : vecRemove (s ++ [.Ident a, .Integer i, v])
      ((s ++ [ExprAst.Ident a, ExprAst.Integer i, v]).length - 3)
      = some (.Ident a, s ++ [.Integer i, v]) := by
    have := vecRemove_append s (.Ident a) [.Integer i, v]
    simpa using this
  rw [hrem]
  simp only [hf]
  rw [if_neg (by simp : ¬((s ++ [ExprAst.Integer i, v]).length < 2))]
  have hrem2 : vecRemove (s ++ [.Integer i, v]) ((s ++ [ExprAst.Integer i, v]).length - 2)
      = some (.Integer i, s ++ [v]) := by
    have := vecRemove_append s (.Integer i) [v]
    simpa using this
  rw [hrem2]
  simp only [vecPop_append s v]

/-- C5 counterexample: `(define a [1 2 3]) (set a 5 9) (len a)` runs to
completion with value 6 — `set` with the non-negative out-of-range index
5 is not a bounds error; `grow_set` silently grows the array (filling
the gap with nils) to length 6. -/
theorem setOutOfRangeGrows :
    (runProgram 50 setGrowProg).map Prod.snd = some [.Integer 6]
      ∧ (some [ExprAst.Integer 6] : Option (List ExprAst)) ≠ none :=
  ⟨rfl, by simp⟩

/-- C5 (amended): on an array of length `n`, `get` and `set` with index
`-1` address the last element and with index `-n` the first; a negative
index below `-n` is a bounds error for both; `get` with a non-negative
index at or past `n` is a bounds error; but `set` with a non-negative
index at or past `n` is *not* an error — it rebinds the name to the
array grown to length `index + 1`, the gap filled with nils. -/
theorem getSetIndexSemantics (heap : Heap) (envId : Nat) (a : String)
    (s items : List ExprAst) (v : ExprAst) :
    (0 < items.length →
       builtinGet (s ++ [.Array items, .Integer (-1)]) 2
         = (items.get? (items.length - 1)).map (fun w => (w, s)))
    ∧ (0 < items.length →
       builtinGet (s ++ [.Array items, .Integer (-(items.length : Int))]) 2
         = (items.get? 0).map (fun w => (w, s)))
    ∧ (∀ i : Int, i < -(items.length : Int) →
        builtinGet (s ++ [.Array items, .Integer i]) 2 = none)
    ∧ (∀ i : Int, (items.length : Int) ≤ i →
        builtinGet (s ++ [.Array items, .Integer i]) 2 = none)
    ∧ (envFind heap envId a = some (.value (.Array items)) →
       (0 < items.length →
          builtinSet heap envId (s ++ [.Ident a, .Integer (-1), v]) 3
            = some (.Nil, (envReplace heap envId a
                (.value (.Array (items.set (items.length - 1) v)))).2, s))
       ∧ (0 < items.length →
          builtinSet heap envId (s ++ [.Ident a, .Integer (-(items.length : Int)), v]) 3
            = some (.Nil, (envReplace heap envId a (.value (.Array (items.set 0 v)))).2, s))
       ∧ (∀ i : Int, i < -(items.length : Int) →
            builtinSet heap envId (s ++ [.Ident a, .Integer i, v]) 3 = none)
       ∧ (∀ i : Int, (items.length : Int) ≤ i →
            builtinSet heap envId (s ++ [.Ident a, .Integer i, v]) 3
              = some (.Nil, (envReplace heap envId a (.value (.Array
                  (items ++ List.replicate (i.toNat - items.length) .Nil ++ [v])))).2, s))) := by
  have hm1 : ∀ n : Nat, 0 < n → normIdx (-1) n = some (n - 1) := by
    intro n hn
    unfold normIdx
    rw [if_pos (by omega), if_neg (by omega)]
    congr 1
  have hmn : ∀ n : Nat, 0 < n → normIdx (-(n : Int)) n = some 0 := by
    intro n hn
    unfold normIdx
    rw [if_pos (by omega), if_neg (by omega)]
    congr 1
    omega
  have hlow : ∀ (n : Nat) (i : Int), i < -(n : Int) → normIdx i n = none := by
    intro n i hi
    unfold normIdx
    rw [if_pos (by omega), if_pos (by omega)]
  have hhigh : ∀ (n : Nat) (i : Int), 0 ≤ i → normIdx i n = some i.toNat := by
    intro n i hi
    unfold normIdx
    rw [if_neg (by omega)]
  refine ⟨?_, ?_, ?_, ?_, ?_⟩
  · intro hn
    simp only [builtinGet_shape, hm1 items.length hn]
  · intro hn
    simp only [builtinGet_shape, hmn items.length hn]
  · intro i hi
    simp only [builtinGet_shape, hlow items.length i hi]
  · intro i hi
    simp only [builtinGet_shape, hhigh items.length i (by omega)]
    rw [List.get?_eq_none.mpr (by omega)]
    rfl
  · intro hf
    have hg1 : 0 < items.length → growSet items (items.length - 1) .Nil v
        = items.set (items.length - 1) v := by
      intro hn
      unfold growSet
      rw [if_pos (by omega)]
    have hg0 : 0 < items.length → growSet items 0 .Nil v = items.set 0 v := by
      intro hn
      unfold growSet
      rw [if_pos (by omega)]
    refine ⟨?_, ?_, ?_, ?_⟩
    · intro hn
      simp only [builtinSet_shape heap envId a s items (-1) v hf, hm1 items.length hn,
        hg1 hn]
    · intro hn
      simp only [builtinSet_shape heap envId a s items (-(items.length : Int)) v hf,
        hmn items.length hn, hg0 hn]
    · intro i hi
      simp only [builtinSet_shape heap envId a s items i v hf, hlow items.length i hi]
    · intro i hi
      have hgrow : growSet items i.toNat .Nil v
          = items ++ List.replicate (i.toNat - items.length) .Nil ++ [v] := by
        unfold growSet
        rw [if_neg (by omega)]
      simp only [builtinSet_shape heap envId a s items i v hf,
        hhigh items.length i (by omega), hgrow]

theorem getSetIndexSemanticsWitness :
    builtinGet ([] ++ [.Array [.Integer 10, .Integer 20], .Integer (-1)]) 2
        = some (.Integer 20, [])
      ∧ builtinSet [⟨none, [("a", .value (.Array [.Integer 10, .Integer 20]))]⟩] 0
          ([] ++ [.Ident "a", .Integer 3, .Integer 9]) 3
        = some (.Nil, (envReplace [⟨none, [("a", .value (.Array [.Integer 10, .Integer 20]))]⟩] 0 "a"
            (.value (.Array [.Integer 10, .Integer 20, .Nil, .Integer 9]))).2, []) := by
  have h := getSetIndexSemantics [⟨none, [("a", .value (.Array [.Integer 10, .Integer 20]))]⟩]
    0 "a" [] [.Integer 10, .Integer 20] (.Integer 9)
  refine ⟨?_, ?_⟩
  · have h1 := h.1 (by decide)
    simpa using h1
  · have h2 := (h.2.2.2.2 rfl).2.2.2 3 (by decide)
    simpa using h2

/-! ## Claim C9: selective evaluation by `if` -/

/-- C9 counterexample: with a false condition and no else branch, *no*
branch is evaluated (not "exactly one"): here the then branch is the
unbound identifier `nope`, whose evaluation fails, yet the `if` form
succeeds — and takes the pre-existing value 5 from beneath its operands
as its value. -/
theorem ifFalseNoElseEvaluatesNoBranch :
    executeNode noModules 5 initHeap 0 [.Integer 5] (.Sexpr "if" [.Boolean false, .Ident "nope"])
        = some (initHeap, [.Integer 5])
      ∧ executeNode noModules 5 initHeap 0 [.Integer 5] (.Ident "nope") = none :=
  ⟨rfl, rfl⟩

/-- C9 (amended): for an `if` application on a well-shaped stack, *at
most* one branch is evaluated: the then branch exactly when the
condition is true, the else branch exactly when it is false and present;
with a false condition and no else branch neither is evaluated and the
result is popped from beneath the operands.  A non-boolean condition is
an error and an operand count other than 2 or 3 is an arity error. -/
theorem ifSelectiveEvaluation (exec : Exec) (heap h' : Heap) (envId : Nat)
    (s : List ExprAst) (t e c v b : ExprAst) (s' : List ExprAst) :
    (exec heap envId s t = some (h', s ++ [v]) →
       builtinIf exec heap envId (s ++ [.Boolean true, t]) 2 = some (v, h', s))
    ∧ (vecPop s = some (b, s') →
       builtinIf exec heap envId (s ++ [.Boolean false, t]) 2 = some (b, heap, s'))
    ∧ (exec heap envId s t = some (h', s ++ [v]) →
       builtinIf exec heap envId (s ++ [.Boolean true, t, e]) 3 = some (v, h', s))
    ∧ (exec heap envId s e = some (h', s ++ [v]) →
       builtinIf exec heap envId (s ++ [.Boolean false, t, e]) 3 = some (v, h', s))
    ∧ ((∀ bl : Bool, c ≠ .Boolean bl) →
       builtinIf exec heap envId (s ++ [c, t]) 2 = none)
    ∧ (∀ (stack : List ExprAst) (ops : Nat), ops < 2 ∨ 3 < ops →
       builtinIf exec heap envId stack ops = none) := by
  have hrem2c : ∀ c0 t0 : ExprAst, vecRemove (s ++ [c0, t0]) ((s ++ [c0, t0]).length - 2)
      = some (c0, s ++ [t0]) := by
    intro c0 t0
    have := vecRemove_append s c0 [t0]
    simpa using this
  have hrem2t : ∀ t0 : ExprAst, vecRemove (s ++ [t0]) ((s ++ [t0]).length + 1 - 2)
      = some (t0, s) := by
    intro t0
    have := vecRemove_append s t0 []
    simpa using this
  have hrem3c : ∀ c0 t0 e0 : ExprAst, vecRemove (s ++ [c0, t0, e0]) ((s ++ [c0, t0, e0]).length - 3)
      = some (c0, s ++ [t0, e0]) := by
    intro c0 t0 e0
    have := vecRemove_append s c0 [t0, e0]
    simpa using this
  have hrem3t : ∀ t0 e0 : ExprAst, vecRemove (s ++ [t0, e0]) ((s ++ [t0, e0]).length + 1 - 3)
      = some (t0, s ++ [e0]) := by
    intro t0 e0
    have := vecRemove_append s t0 [e0]
    simpa using this
  refine ⟨?_, ?_, ?_, ?_, ?_, ?_⟩
  · intro hx
    unfold builtinIf
    rw [if_neg (by omega), if_neg (by simp)]
    simp only [hrem2c, hrem2t]
    rw [if_neg (by omega)]
    simp [vecPop_append, hx]
  · intro hpop
    unfold builtinIf
    rw [if_neg (by omega), if_neg (by simp)]
    simp only [hrem2c, hrem2t]
    rw [if_neg (by omega)]
    simp [hpop]
  · intro hx
    unfold builtinIf
    rw [if_neg (by omega), if_neg (by simp)]
    simp only [hrem3c, hrem3t]
    rw [if_pos (by omega)]
    simp [vecPop_append, hx]
  · intro hx
    unfold builtinIf
    rw [if_neg (by omega), if_neg (by simp)]
    simp only [hrem3c, hrem3t]
    rw [if_pos (by omega)]
    simp [vecPop_append, hx]
  · intro hc
    unfold builtinIf
    rw [if_neg (by omega), if_neg (by simp)]
    rw [hrem2c]
    cases c
    case Boolean bl => exact absurd rfl (hc bl)
    all_goals rfl
  · intro stack ops hops
    unfold builtinIf
    rw [if_pos hops]

theorem ifSelectiveEvaluationWitness :
    builtinIf (executeNode noModules 3) initHeap 0
        ([] ++ [.Boolean true, .Integer 7]) 2 = some (.Integer 7, initHeap, [])
      ∧ builtinIf (executeNode noModules 3) initHeap 0 [] 5 = none := by
  have h := ifSelectiveEvaluation (executeNode noModules 3) initHeap initHeap 0
    [] (.Integer 7) .Nil .Nil (.Integer 7) .Nil []
  exact ⟨h.1 rfl, h.2.2.2.2.2 [] 5 (by omega)⟩

/-! ## Claim C8: `replace` mutates the nearest enclosing scope -/

theorem wf_parent (heap : Heap) (hwf : wfHeap heap = true) {i p : Nat} {e : EnvData}
    (he : heap.get? i = some e) (hp : e.parent = some p) : p < i := by
  have hi : i < heap.length := by
    by_contra hcon
    rw [List.get?_eq_none.mpr (by omega)] at he
    exact absurd he (by simp)
  unfold wfHeap at hwf
  rw [List.all_eq_true] at hwf
  have h2 := hwf i (List.mem_range.mpr hi)
  simp only [he, hp] at h2
  simpa using h2

/-- The combined induction on fuel behind the `replace` theorem: with
enough fuel, `replace` fails leaving the heap unchanged when no cell of
the chain contains the key, and otherwise updates exactly the first
chain cell that does. -/
theorem replaceChainAux (key : String) (v : EnvValue) (heap : Heap) (hwf : wfHeap heap = true) :
    ∀ fuel id, id < fuel → id < heap.length →
    ((envChainAux fuel heap id).find? (fun j => envContains heap j key) = none →
        envReplaceAux fuel heap id key v = (false, heap))
    ∧ (∀ j, (envChainAux fuel heap id).find? (fun j => envContains heap j key) = some j →
        envReplaceAux fuel heap id key v = (true, heapUpd heap j key v)) := by
  intro fuel
  induction fuel with
  | zero => intro id h; omega
  | succ fuel ih =>
    intro id hfuel hlen
    obtain ⟨e, he⟩ : ∃ e, heap.get? id = some e :=
      ⟨heap.get ⟨id, hlen⟩, List.get?_eq_get hlen⟩
    have hchain : envChainAux (fuel + 1) heap id
        = id :: (match e.parent with
                 | some p => envChainAux fuel heap p
                 | none => []) := by
      rw [envChainAux, he]
    cases hco : envContains heap id key with
    | true =>
      have hs : (assocFind e.values key).isSome = true := by
        unfold envContains at hco
        rw [he] at hco
        exact hco
      constructor
      · intro hnone
        rw [hchain] at hnone
        simp only [List.find?, hco] at hnone
        exact absurd hnone (by simp)
      · intro j hj
        rw [hchain] at hj
        simp only [List.find?, hco, Option.some.injEq] at hj
        subst hj
        rw [envReplaceAux, he]
        simp only [if_pos hs]
        unfold heapUpd
        rw [he]
    | false =>
      have hs2 : (assocFind e.values key).isSome = false := by
        unfold envContains at hco
        rw [he] at hco
        exact hco
      have hs : ¬((assocFind e.values key).isSome = true) := by simp [hs2]
      have hrepl : envReplaceAux (fuel + 1) heap id key v
          = (match e.parent with
             | some p => envReplaceAux fuel heap p key v
             | none => (false, heap)) := by
        rw [envReplaceAux, he]
        simp only [if_neg hs]
      cases hp : e.parent with
      | none =>
        rw [hp] at hchain hrepl
        constructor
        · intro _
          rw [hrepl]
        · intro j hj
          rw [hchain] at hj
          simp only [List.find?, hco] at hj
          exact absurd hj (by simp)
      | some p =>
        rw [hp] at hchain hrepl
        have hpl : p < id := wf_parent heap hwf he hp
        have hrec := ih p (by omega) (by omega)
        constructor
        · intro hnone
          rw [hchain] at hnone
          simp only [List.find?, hco] at hnone
          rw [hrepl]
          exact hrec.1 hnone
        · intro j hj
          rw [hchain] at hj
          simp only [List.find?, hco] at hj
          rw [hrepl]
          exact hrec.2 j hj

/-- C8: `replace(name, binding)` mutates the binding in the nearest
enclosing environment of the chain that already contains the name and
returns true, leaving every other cell untouched; when no environment of
the chain contains the name it returns false and the heap is unchanged.
(`wfHeap` records the allocation-order invariant every reachable heap
has; the chain is the parent chain starting at `id`.) -/
theorem replaceNearestEnclosing (heap : Heap) (id : Nat) (key : String) (v : EnvValue)
    (hwf : wfHeap heap = true) (hid : id < heap.length) :
    ((envChain heap id).find? (fun j => envContains heap j key) = none →
       envReplace heap id key v = (false, heap))
    ∧ (∀ j, (envChain heap id).find? (fun j => envContains heap j key) = some j →
       envReplace heap id key v = (true, heapUpd heap j key v)
       ∧ ∀ i, i ≠ j → (heapUpd heap j key v).get? i = heap.get? i) := by
  have h := replaceChainAux key v heap hwf heap.length id hid hid
  refine ⟨h.1, fun j hj => ⟨h.2 j hj, fun i hi => ?_⟩⟩
  unfold heapUpd
  cases hg : heap.get? j with
  | none => rfl
  | some e => exact List.get?_set_ne _ _ (Ne.symm hi)

/-- A two-cell chain: the child (cell 1) does not bind `x`, the root
(cell 0) does. -/
def heapTwoEnv : Heap := [⟨none, [("x", .value (.Integer 1))]⟩, ⟨some 0, []⟩]

theorem replaceNearestEnclosingWitness :
    envReplace heapTwoEnv 1 "x" (.value (.Integer 2))
      = (true, heapUpd heapTwoEnv 0 "x" (.value (.Integer 2))) := by
  have h := (replaceNearestEnclosing heapTwoEnv 1 "x" (.value (.Integer 2))
    (by decide) (by decide)).2 0 rfl
  exact h.1

/-! ## Claim C6: semantics of `+`

The dyadic-rounding lemmas below show that while every operand and every
running sum stays strictly below `2^53` in magnitude, no rounding step
of the `f64` accumulation loses information. -/

theorem natLog2Aux_le : ∀ (fuel n k : Nat), n < 2 ^ (k + 1) → natLog2Aux fuel n ≤ k := by
  intro fuel
  induction fuel with
  | zero => intro n k _; simp [natLog2Aux]
  | succ fuel ih =>
    intro n k hn
    rw [natLog2Aux]
    by_cases h1 : n ≤ 1
    · rw [if_pos h1]
      omega
    · rw [if_neg h1]
      have hk : 1 ≤ k := by
        by_contra hcon
        have hz : k = 0 := by omega
        subst hz
        have : (2:Nat) ^ (0 + 1) = 2 := by norm_num
        omega
      obtain ⟨k', rfl⟩ : ∃ k', k = k' + 1 := ⟨k - 1, by omega⟩
      have hdiv : n / 2 < 2 ^ (k' + 1) := by
        have h2 : n < 2 ^ (k' + 1) * 2 := by
          rw [← pow_succ]
          exact hn
        omega
      have := ih (n / 2) k' hdiv
      omega

theorem stripAux_val : ∀ (fuel : Nat) (m e : Int), fVal (stripAux fuel m e) = (m : ℚ) * 2 ^ e := by
  intro fuel
  induction fuel with
  | zero => intro m e; rfl
  | succ fuel ih =>
    intro m e
    rw [stripAux]
    by_cases h : m ≠ 0 ∧ m % 2 = 0
    · rw [if_pos h]
      rw [ih (m / 2) (e + 1)]
      have hm : m = 2 * (m / 2) := by omega
      have hq : ((m / 2 : ℤ) : ℚ) * 2 ^ (e + 1) = ((2 * (m / 2) : ℤ) : ℚ) * 2 ^ e := by
        push_cast
        rw [zpow_add_one₀ (by norm_num : (2:ℚ) ≠ 0)]
        ring
      rw [hq, ← hm]
    · rw [if_neg h]
      rfl

theorem stripAux_e : ∀ (fuel : Nat) (m e : Int), e ≤ (stripAux fuel m e).e := by
  intro fuel
  induction fuel with
  | zero => intro m e; exact le_refl e
  | succ fuel ih =>
    intro m e
    rw [stripAux]
    by_cases h : m ≠ 0 ∧ m % 2 = 0
    · rw [if_pos h]
      have := ih (m / 2) (e + 1)
      omega
    · rw [if_neg h]

theorem roundDyadic_small (m e : Int) (hm : m.natAbs < 2 ^ 53) :
    fVal (roundDyadic m e) = (m : ℚ) * 2 ^ e ∧ (0 ≤ e → 0 ≤ (roundDyadic m e).e) := by
  unfold roundDyadic
  by_cases h0 : m = 0
  · rw [if_pos h0]
    subst h0
    constructor
    · show fVal ⟨0, 0⟩ = ((0 : ℤ) : ℚ) * 2 ^ e
      simp [fVal]
    · intro _
      exact le_refl 0
  · rw [if_neg h0]
    have hle : natLog2 m.natAbs + 1 ≤ 53 := by
      have hm' : m.natAbs < 2 ^ (52 + 1) := by
        have : (2:Nat) ^ (52 + 1) = 2 ^ 53 := by norm_num
        omega
      have := natLog2Aux_le 1200 m.natAbs 52 hm'
      unfold natLog2
      omega
    rw [if_pos hle]
    exact ⟨stripAux_val 1200 m e, fun he => le_trans he (stripAux_e 1200 m e)⟩

theorem intToF64_small (i : Int) (hi : i.natAbs < 2 ^ 53) :
    fVal (intToF64 i) = (i : ℚ) ∧ 0 ≤ (intToF64 i).e := by
  unfold intToF64
  have h := roundDyadic_small i 0 hi
  refine ⟨?_, h.2 (le_refl 0)⟩
  rw [h.1]
  simp

theorem fAdd_exact (a b : F64) (ha : 0 ≤ a.e) (hb : 0 ≤ b.e)
    (hbound : |fVal a + fVal b| < 2 ^ 53) :
    fVal (fAdd a b) = fVal a + fVal b ∧ 0 ≤ (fAdd a b).e := by
  unfold fAdd
  have he0 : 0 ≤ min a.e b.e := le_min ha hb
  have key : ∀ (x xe : Int), min a.e b.e ≤ xe →
      ((x * 2 ^ (xe - min a.e b.e).toNat : ℤ) : ℚ) * 2 ^ (min a.e b.e) = (x : ℚ) * 2 ^ xe := by
    intro x xe hxe
    push_cast
    rw [← zpow_natCast (2:ℚ) (xe - min a.e b.e).toNat, Int.toNat_of_nonneg (by omega),
      mul_assoc, ← zpow_add₀ (by norm_num : (2:ℚ) ≠ 0), sub_add_cancel]
  have hval : ((a.m * 2 ^ (a.e - min a.e b.e).toNat
        + b.m * 2 ^ (b.e - min a.e b.e).toNat : ℤ) : ℚ) * 2 ^ (min a.e b.e)
      = fVal a + fVal b := by
    unfold fVal
    push_cast
    rw [add_mul]
    have k1 := key a.m a.e (min_le_left a.e b.e)
    have k2 := key b.m b.e (min_le_right a.e b.e)
    push_cast at k1 k2
    rw [k1, k2]
  have hmb : (a.m * 2 ^ (a.e - min a.e b.e).toNat
      + b.m * 2 ^ (b.e - min a.e b.e).toNat).natAbs < 2 ^ 53 := by
    set m : Int := a.m * 2 ^ (a.e - min a.e b.e).toNat
      + b.m * 2 ^ (b.e - min a.e b.e).toNat with hm
    have h2e : (1:ℚ) ≤ 2 ^ (min a.e b.e) := by
      rw [← Int.toNat_of_nonneg he0, zpow_natCast]
      exact one_le_pow₀ (by norm_num)
    have habs : |(m : ℚ)| ≤ |(m : ℚ)| * 2 ^ (min a.e b.e) := by
      nth_rewrite 1 [← mul_one (|(m : ℚ)|)]
      exact mul_le_mul_of_nonneg_left h2e (abs_nonneg _)
    have habs2 : |(m : ℚ)| * 2 ^ (min a.e b.e) = |fVal a + fVal b| := by
      rw [← hval, abs_mul, abs_of_pos (a := (2:ℚ) ^ (min a.e b.e)) (by positivity)]
    have hlt : |(m : ℚ)| < 2 ^ 53 := lt_of_le_of_lt (habs2 ▸ habs) hbound
    have habs3 : ((|m| : ℤ) : ℚ) < (((2:ℤ) ^ 53 : ℤ) : ℚ) := by
      rw [Int.cast_abs]
      push_cast
      exact hlt
    have hint : |m| < (2:ℤ) ^ 53 := by exact_mod_cast habs3
    have hnat : (m.natAbs : ℤ) < (2:ℤ) ^ 53 := by
      rw [← Int.abs_eq_natAbs]
      exact hint
    exact_mod_cast hnat
  have hr := roundDyadic_small _ (min a.e b.e) hmb
  exact ⟨by rw [hr.1, hval], hr.2 he0⟩

theorem truncF64_int (f : F64) (n : Int) (h : fVal f = (n : ℚ)) : truncF64 f = n := by
  unfold fVal at h
  unfold truncF64
  by_cases he : 0 ≤ f.e
  · rw [if_pos he]
    have hq : ((f.m * 2 ^ f.e.toNat : ℤ) : ℚ) = (n : ℚ) := by
      push_cast
      rw [← zpow_natCast (2:ℚ), Int.toNat_of_nonneg he]
      exact h
    exact_mod_cast hq
  · rw [if_neg he]
    have hfm : f.m = n * 2 ^ (-f.e).toNat := by
      have h3 := congrArg (fun q : ℚ => q * 2 ^ (-f.e)) h
      simp only at h3
      rw [mul_assoc, ← zpow_add₀ (by norm_num : (2:ℚ) ≠ 0), add_neg_cancel, zpow_zero,
        mul_one] at h3
      have h4 : (f.m : ℚ) = ((n * 2 ^ (-f.e).toNat : ℤ) : ℚ) := by
        push_cast
        rw [← zpow_natCast (2:ℚ), Int.toNat_of_nonneg (by omega : (0:ℤ) ≤ -f.e)]
        exact h3
      exact_mod_cast h4
    have hd : (n * 2 ^ (-f.e).toNat).natAbs = n.natAbs * 2 ^ (-f.e).toNat := by
      rw [Int.natAbs_mul]
      congr 1
      simp [Int.natAbs_pow]
    rw [hfm, hd, Nat.mul_div_cancel _ (by positivity : 0 < 2 ^ (-f.e).toNat)]
    have h2k : (0:ℤ) < 2 ^ (-f.e).toNat := by positivity
    by_cases hneg : n < 0
    · rw [if_pos (by exact mul_neg_of_neg_of_pos hneg h2k)]
      omega
    · rw [if_neg (by push_neg at hneg ⊢; exact mul_nonneg hneg (le_of_lt h2k))]
      omega

theorem addLoop_eq : ∀ (l s : List ExprAst) (acc : F64) (dec : Bool),
    addLoop l.length (s ++ l) acc dec
      = (addFoldL l.reverse acc dec).map (fun r => (r.1, r.2, s)) := by
  intro l
  induction l using List.reverseRecOn with
  | nil => intro s acc dec; simp [addLoop, addFoldL]
  | append_singleton l x ih =>
    intro s acc dec
    have hlen : (l ++ [x]).length = l.length + 1 := by simp
    have hpop : vecPop (s ++ (l ++ [x])) = some (x, s ++ l) := by
      rw [← List.append_assoc]
      exact vecPop_append (s ++ l) x
    rw [hlen, addLoop, hpop]
    cases x <;> simp [addFoldL, ih]

theorem addFoldL_ints : ∀ (li : List Int) (acc : F64) (a : Int) (dec : Bool),
    fVal acc = (a : ℚ) → 0 ≤ acc.e → foldOkB a li = true →
    ∃ acc2, addFoldL (li.map .Integer) acc dec = some (acc2, dec)
      ∧ fVal acc2 = ((a + li.sum : ℤ) : ℚ) ∧ 0 ≤ acc2.e := by
  intro li
  induction li with
  | nil =>
    intro acc a dec hval he _
    refine ⟨acc, rfl, ?_, he⟩
    simpa using hval
  | cons x rest ih =>
    intro acc a dec hval he hok
    rw [foldOkB] at hok
    simp only [Bool.and_eq_true, decide_eq_true_eq] at hok
    obtain ⟨⟨hx, hax⟩, hrest⟩ := hok
    have hi := intToF64_small x hx
    have hbound : |fVal acc + fVal (intToF64 x)| < 2 ^ 53 := by
      rw [hval, hi.1]
      have h2 : |a + x| < (2:ℤ) ^ 53 := by
        rw [Int.abs_eq_natAbs]
        exact_mod_cast hax
      have h1 : |((a + x : ℤ) : ℚ)| < (((2:ℤ) ^ 53 : ℤ) : ℚ) := by
        rw [← Int.cast_abs]
        exact_mod_cast h2
      push_cast at h1 ⊢
      exact h1
    have hstep := fAdd_exact acc (intToF64 x) he hi.2 hbound
    have hv2 : fVal (fAdd acc (intToF64 x)) = ((a + x : ℤ) : ℚ) := by
      rw [hstep.1, hval, hi.1]
      push_cast
      ring
    obtain ⟨acc2, heq, hval2, he2⟩ := ih (fAdd acc (intToF64 x)) (a + x) dec hv2 hstep.2 hrest
    refine ⟨acc2, ?_, ?_, he2⟩
    · simp only [List.map_cons, addFoldL]
      exact heq
    · rw [hval2]
      push_cast
      simp [List.sum_cons]
      ring

theorem addFoldL_numeric : ∀ (l : List ExprAst) (acc : F64) (dec : Bool),
    (∀ x ∈ l, numericOk x = true) →
    ∃ acc2, addFoldL l acc dec = some (acc2, dec || l.any isFloatV) := by
  intro l
  induction l with
  | nil => intro acc dec _; exact ⟨acc, by simp [addFoldL]⟩
  | cons x rest ih =>
    intro acc dec hnum
    have hx := hnum x (List.mem_cons_self x rest)
    have hrest := fun y hy => hnum y (List.mem_cons_of_mem x hy)
    cases x with
    | Integer i =>
      obtain ⟨acc2, heq⟩ := ih (fAdd acc (intToF64 i)) dec hrest
      exact ⟨acc2, by simpa [addFoldL, isFloatV] using heq⟩
    | Float f =>
      obtain ⟨acc2, heq⟩ := ih (fAdd acc f) true hrest
      refine ⟨acc2, ?_⟩
      simp only [addFoldL, List.any_cons, isFloatV, Bool.true_or, Bool.or_true]
      simpa using heq
    | Boolean bb => simp [numericOk] at hx
    | Nil => simp [numericOk] at hx
    | Symbol sy => simp [numericOk] at hx
    | String st => simp [numericOk] at hx
    | Array it => simp [numericOk] at hx
    | List it => simp [numericOk] at hx
    | Ident nm => simp [numericOk] at hx
    | Sexpr op operands => simp [numericOk] at hx
    | Code p c ei => simp [numericOk] at hx

theorem addFoldL_bad : ∀ (l : List ExprAst) (acc : F64) (dec : Bool),
    (∃ x ∈ l, numericOk x = false) → addFoldL l acc dec = none := by
  intro l
  induction l with
  | nil => intro acc dec ⟨x, hx, _⟩; exact absurd hx (by simp)
  | cons x rest ih =>
    intro acc dec ⟨x0, hx0, hbad⟩
    rcases List.mem_cons.mp hx0 with h0 | h0
    · subst h0
      cases x0 with
      | Integer i => exact absurd hbad (by simp [numericOk])
      | Float f => exact absurd hbad (by simp [numericOk])
      | Boolean bb => rfl
      | Nil => rfl
      | Symbol sy => rfl
      | String st => rfl
      | Array it => rfl
      | List it => rfl
      | Ident nm => rfl
      | Sexpr op operands => rfl
      | Code p c ei => rfl
    · cases x with
      | Integer i => exact ih (fAdd acc (intToF64 i)) dec ⟨x0, h0, hbad⟩
      | Float f => exact ih (fAdd acc f) true ⟨x0, h0, hbad⟩
      | Boolean bb => rfl
      | Nil => rfl
      | Symbol sy => rfl
      | String st => rfl
      | Array it => rfl
      | List it => rfl
      | Ident nm => rfl
      | Sexpr op operands => rfl
      | Code p c ei => rfl

/-- C6 counterexample: `+` on the single integer operand `2^53 + 1`
returns `2^53`, not the exact sum — the accumulation runs through `f64`,
whose conversion from `i64` rounds to the nearest even 53-bit value. -/
theorem addRoundsLargeInteger :
    builtinAdd [.Integer 9007199254740993] 1 = some (.Integer 9007199254740992, [])
      ∧ (9007199254740992 : Int) ≠ 9007199254740993 :=
  ⟨rfl, by decide⟩

/-- C6 (amended): `+` returns a float exactly when at least one operand
is a float, and a non-numeric operand is fatal; in the all-integer case
the result is the exact mathematical sum *provided* every operand and
every intermediate sum stays strictly below `2^53` in magnitude (the
accumulator is a 64-bit float, so larger intermediate values round). -/
theorem addNumericSemantics :
    (∀ (s : List ExprAst) (li : List Int), foldOkB 0 li.reverse = true →
       builtinAdd (s ++ li.map .Integer) li.length = some (.Integer li.sum, s))
    ∧ (∀ (s l : List ExprAst) (r : ExprAst × List ExprAst),
        (∀ x ∈ l, numericOk x = true) →
        builtinAdd (s ++ l) l.length = some r →
        ((∃ q, r.1 = .Float q) ↔ ∃ q, .Float q ∈ l))
    ∧ (∀ (s l : List ExprAst), (∃ x ∈ l, numericOk x = false) →
        builtinAdd (s ++ l) l.length = none) := by
  refine ⟨?_, ?_, ?_⟩
  · intro s li hok
    unfold builtinAdd
    have hlen : (li.map ExprAst.Integer).length = li.length := by simp
    rw [← hlen, addLoop_eq (li.map .Integer) s ⟨0, 0⟩ false]
    have hrev : (li.map ExprAst.Integer).reverse = li.reverse.map .Integer := by
      simp
    rw [hrev]
    obtain ⟨acc2, heq, hval, he⟩ := addFoldL_ints li.reverse ⟨0, 0⟩ 0 false
      (by simp [fVal]) (le_refl 0) hok
    rw [heq]
    have ht : truncF64 acc2 = li.sum := by
      refine truncF64_int acc2 li.sum ?_
      rw [hval]
      push_cast
      simp [List.sum_reverse]
    simp [ht]
  · intro s l r hnum hr
    unfold builtinAdd at hr
    rw [addLoop_eq l s ⟨0, 0⟩ false] at hr
    obtain ⟨acc2, heq⟩ := addFoldL_numeric l.reverse ⟨0, 0⟩ false
      (fun x hx => hnum x (List.mem_reverse.mp hx))
    rw [heq] at hr
    simp only [Option.map_some', Option.some.injEq, Bool.false_or] at hr
    cases hany : l.reverse.any isFloatV with
    | true =>
      rw [hany] at hr
      subst hr
      simp only [if_pos rfl]
      constructor
      · intro _
        obtain ⟨x, hx, hfl⟩ := List.any_eq_true.mp hany
        cases x with
        | Float q => exact ⟨q, List.mem_reverse.mp hx⟩
        | _ => simp [isFloatV] at hfl
      · intro _
        exact ⟨acc2, rfl⟩
    | false =>
      rw [hany] at hr
      subst hr
      simp only [Bool.false_eq_true, if_neg (by simp : ¬(false = true))]
      constructor
      · intro ⟨q, hq⟩
        exact absurd hq (by simp)
      · intro ⟨q, hq⟩
        have : l.reverse.any isFloatV = true :=
          List.any_eq_true.mpr ⟨.Float q, List.mem_reverse.mpr hq, rfl⟩
        rw [hany] at this
        exact absurd this (by simp)
  · intro s l ⟨x, hx, hbad⟩
    unfold builtinAdd
    rw [addLoop_eq l s ⟨0, 0⟩ false,
      addFoldL_bad l.reverse ⟨0, 0⟩ false ⟨x, List.mem_reverse.mpr hx, hbad⟩]
    rfl

theorem addNumericSemanticsWitness :
    builtinAdd [ExprAst.Integer 1, ExprAst.Integer 2] 2 = some (.Integer 3, []) := by
  have h := addNumericSemantics.1 [] [1, 2] (by decide)
  simpa using h

/-! ## Claim C10: `import` merges the whole nested root environment -/

theorem assocInsert_find_self (l : List (String × EnvValue)) (key : String) (v : EnvValue) :
    assocFind (assocInsert l key v) key = some v := by
  induction l with
  | nil => simp [assocInsert, assocFind]
  | cons p rest ih =>
    obtain ⟨k, w⟩ := p
    by_cases h : k = key
    · subst h
      simp [assocInsert, assocFind]
    · simp only [assocInsert, if_neg h, assocFind]
      exact ih

theorem assocInsert_find_ne (l : List (String × EnvValue)) (k0 key : String) (v0 : EnvValue)
    (h : k0 ≠ key) : assocFind (assocInsert l k0 v0) key = assocFind l key := by
  induction l with
  | nil => simp [assocInsert, assocFind, if_neg h]
  | cons p rest ih =>
    obtain ⟨k, w⟩ := p
    by_cases hk : k = k0
    · subst hk
      simp only [assocInsert, if_pos rfl, assocFind]
      rw [if_neg h, if_neg h]
    · simp only [assocInsert, if_neg hk, assocFind]
      by_cases hk2 : k = key
      · rw [if_pos hk2, if_pos hk2]
      · rw [if_neg hk2, if_neg hk2]
        exact ih

theorem assocExtend_notmem (l2 : List (String × EnvValue)) (key : String) :
    ∀ l1, (∀ p ∈ l2, p.1 ≠ key) →
    assocFind (assocExtend l1 l2) key = assocFind l1 key := by
  induction l2 with
  | nil => intro l1 _; rfl
  | cons p rest ih =>
    intro l1 hmem
    have hstep : assocExtend l1 (p :: rest) = assocExtend (assocInsert l1 p.1 p.2) rest := rfl
    rw [hstep, ih (assocInsert l1 p.1 p.2) (fun q hq => hmem q (List.mem_cons_of_mem p hq))]
    exact assocInsert_find_ne l1 p.1 key p.2 (hmem p (List.mem_cons_self p rest))

theorem assocExtend_find (l2 : List (String × EnvValue)) :
    ∀ (l1 : List (String × EnvValue)) (key : String) (w : EnvValue),
    keysUnique l2 = true → assocFind l2 key = some w →
    assocFind (assocExtend l1 l2) key = some w := by
  induction l2 with
  | nil => intro l1 key w _ hf; simp [assocFind] at hf
  | cons p rest ih =>
    intro l1 key w hu hf
    obtain ⟨k, v⟩ := p
    have hstep : assocExtend l1 ((k, v) :: rest) = assocExtend (assocInsert l1 k v) rest := rfl
    rw [keysUnique, Bool.and_eq_true, List.all_eq_true] at hu
    by_cases hk : k = key
    · subst hk
      rw [assocFind, if_pos rfl] at hf
      injection hf with hf
      subst hf
      rw [hstep, assocExtend_notmem rest k (assocInsert l1 k v)
        (fun q hq => by simpa using hu.1 q hq)]
      exact assocInsert_find_self l1 k v
    · rw [assocFind, if_neg hk] at hf
      rw [hstep]
      exact ih (assocInsert l1 k v) key w hu.2 hf

/-- C10: a successful `import` of one module merges *every* binding of
the fresh nested interpreter's final root environment — the built-ins
and `FILE` installed at its creation plus whatever the module defined —
into the importing environment, overwriting on collision; in particular
any binding present in the nested root (such as `FILE`, set to the
resolved module path before execution) is afterwards visible unchanged
in the importing environment. -/
theorem importMergesAllBindings (modules : Modules) (exec : Exec) (heap heapN : Heap)
    (envId : Nat) (f slice path : String) (asts : List ExprAst) (rootE impE : EnvData)
    (hrel : strStartsRel slice = true)
    (hFILE : envFind heap envId "FILE" = some (.value (.String f)))
    (hpath : path = resolvePath f slice)
    (hmod : modules path = some asts)
    (hrun : execProgramF exec
        (heapInsert (heap ++ [⟨none, defaultValues⟩]) heap.length "FILE"
          (.value (.String path))) heap.length asts = some heapN)
    (hroot : heapN.get? heap.length = some rootE)
    (himp : heapN.get? envId = some impE) :
    importOne modules exec heap envId slice
        = some (heapN.set envId { impE with values := assocExtend impE.values rootE.values })
    ∧ (∀ (k : String) (w : EnvValue), keysUnique rootE.values = true →
        assocFind rootE.values k = some w →
        assocFind (assocExtend impE.values rootE.values) k = some w) := by
  subst hpath
  constructor
  · unfold importOne
    rw [if_pos hrel]
    simp only [hFILE, hmod, hrun, hroot, himp]
  · intro k w hu hfind
    exact assocExtend_find rootE.values impE.values k w hu hfind

/-- The file system for the import witness: one module, empty body. -/
def importWitnessModules : Modules :=
  fun p => if p = resolvePath "" "./m" then some [] else none

def importWPath : String := "/./m.irl"

def importWHeapN : Heap :=
  heapInsert (initHeap ++ [⟨none, defaultValues⟩]) 1 "FILE" (.value (.String importWPath))

theorem importMergesAllBindingsWitness :
    importOne importWitnessModules (executeNode importWitnessModules 3) initHeap 0 "./m"
        = some (importWHeapN.set 0
            { parent := none,
              values := assocExtend defaultValues
                (assocInsert defaultValues "FILE" (.value (.String importWPath))) })
      ∧ assocFind (assocExtend defaultValues
            (assocInsert defaultValues "FILE" (.value (.String importWPath)))) "FILE"
          = some (.value (.String importWPath)) := by
  have h := importMergesAllBindings importWitnessModules (executeNode importWitnessModules 3)
    initHeap importWHeapN 0 "" "./m" importWPath []
    ⟨none, assocInsert defaultValues "FILE" (.value (.String importWPath))⟩
    ⟨none, defaultValues⟩ rfl rfl rfl rfl rfl rfl rfl
  exact ⟨h.1, h.2 "FILE" (.value (.String importWPath)) (by decide) rfl⟩

/-! ## Claim C7: over-supplied closure arguments -/

/-- C7: supplying a closure with more arguments than parameters pops and
drops the excess from the top of the stack before any binding happens,
so the invocation prepares its bindings exactly as a call with only the
first `params.length` arguments would — in particular over-supply never
fails the argument-preparation step on its own. -/
theorem oversuppliedArgsDropped (params : List ExprAst) (s args : List ExprAst)
    (h : params.length < args.length) :
    prepareArgs params args.length (s ++ args)
      = prepareArgs params params.length (s ++ args.take params.length) := by
  unfold prepareArgs
  rw [if_pos h, if_neg (lt_irrefl params.length)]
  have htake : (s ++ args).take ((s ++ args).length - (args.length - params.length))
      = s ++ args.take params.length := by
    have hlen : (s ++ args).length - (args.length - params.length)
        = s.length + params.length := by
      simp only [List.length_append]
      omega
    rw [hlen, List.take_append_eq_append_take, List.take_of_length_le (by omega)]
    congr 1
    congr 1
    omega
  rw [htake]
  simp only [if_pos h, if_neg (lt_irrefl params.length)]

theorem oversuppliedArgsDroppedWitness :
    prepareArgs [.Ident "p"] 2 [.Integer 1, .Integer 2]
      = prepareArgs [.Ident "p"] 1 [.Integer 1] := by
  have h := oversuppliedArgsDropped [.Ident "p"] [] [.Integer 1, .Integer 2] (by decide)
  simpa using h

theorem closureCallReturnsFirstBodyValueWitness :
    executeNode noModules 6 heapTwoBody 0 [] (.Sexpr "g" [])
      = some (heapTwoBody ++ [(⟨some 0, []⟩ : EnvData)], [.Integer 1]) := by
  have h := closureCallReturnsFirstBodyValue noModules 5 heapTwoBody heapTwoBody
    (heapTwoBody ++ [(⟨some 0, []⟩ : EnvData)]) (heapTwoBody ++ [(⟨some 0, []⟩ : EnvData)])
    0 0 [] [] "g" [] [] [.Integer 2] [.Integer 2] (.Integer 1) (.Integer 1) []
    (by decide) (by decide) (by decide) (by decide) rfl rfl rfl rfl rfl
  simpa using h

end Iron
